import Mathlib

/-!
Shallow embedding of the availability evaluator and report assembler of the
RoomChecker repository (src/room_checker.py and src/celcat_flask_app.py).

Modelling choices:
* A Python `datetime` is modelled as an integer number of seconds (`Time := ℤ`);
  comparison of datetimes is integer comparison, and `d.date()` equality is
  equality of the floored day number `date t = t.fdiv 86400` (naive datetimes,
  uniform days).
* Events arrive from the API as ISO strings and are parsed with
  `datetime.fromisoformat` at every use site; parsing is injective, so an
  event is modelled directly as its parsed pair of instants.
* `timedelta.total_seconds() / 60` is modelled exactly as rational division
  by 60 (`minutesBetween`).
* The `float('inf')` sentinel for "no further event today" is the `Dur.inf`
  constructor; finite durations are rationals.
* `list.sort(key=...)` is a stable sort by the key order.  For a total
  preorder a stable sort is extensionally unique, so Python's Timsort is
  modelled by `List.insertionSort` with the (non-strict, decidable) key
  order, which is stable in exactly the same sense.
-/

namespace RoomChecker

/-- Instants: seconds on an unbounded timeline (naive `datetime`). -/
abbrev Time := Int

/-- Calendar date of an instant: the floored day number (`datetime.date()`). -/
def date (t : Time) : Int := Int.fdiv t 86400

/-- One event of a room schedule: the parsed `start`/`end` ISO timestamps.
(`end` is a Lean keyword, so the field is called `stop`.) -/
structure Event where
  start : Time
  stop : Time
deriving DecidableEq

/-- A duration in minutes, or the `float('inf')` sentinel. -/
inductive Dur where
  | fin : ℚ → Dur
  | inf : Dur
deriving DecidableEq

/-- Strict order on durations: `inf` is above every finite value
(mirrors `float` comparison with `float('inf')`). -/
def Dur.ltP : Dur → Dur → Prop
  | .fin a, .fin b => a < b
  | .fin _, .inf => True
  | .inf, _ => False

instance : ∀ a b : Dur, Decidable (Dur.ltP a b)
  | .fin a, .fin b => inferInstanceAs (Decidable (a < b))
  | .fin _, .inf => inferInstanceAs (Decidable True)
  | .inf, .fin _ => inferInstanceAs (Decidable False)
  | .inf, .inf => inferInstanceAs (Decidable False)

/-- `(b - a).total_seconds() / 60`. -/
def minutesBetween (a b : Time) : ℚ := ((b - a : ℤ) : ℚ) / 60

/-- The test `start <= t <= end` applied to one event (inlined in several
loops of both source files). -/
def covers (t : Time) (e : Event) : Bool :=
  decide (e.start ≤ t) && decide (t ≤ e.stop)

/-- The test `start > t and start.date() == t.date()` selecting future
same-day events (inlined in `get_next_event` / `get_next_event_today`). -/
def futureToday (t : Time) (e : Event) : Bool :=
  decide (t < e.start) && decide (date e.start = date t)

/-- Python `min(events, key=lambda e: e.start)` on a possibly empty list:
`none` on `[]`, otherwise the first element of minimal `start`. -/
def minByStart : List Event → Option Event
  | [] => none
  | e :: rest => some (rest.foldl (fun m x => if x.start < m.start then x else m) e)

/-- `is_room_available_now(events, current_time)` — src/room_checker.py
lines 64–85: returns `False` as soon as one event covers `current_time`,
else `True`; the empty list short-circuits to `True`. -/
def is_room_available_now (events : List Event) (current_time : Time) : Bool :=
  match events with
  | [] => true
  | _ => events.all (fun e => !(covers current_time e))

/-- `get_next_event(events, current_time)` — src/room_checker.py lines
88–115: collect the future same-day events, return `None` when there are
none, otherwise the `min` by `start`. -/
def get_next_event (events : List Event) (current_time : Time) : Option Event :=
  match events with
  | [] => none
  | _ =>
    let future_events := events.filter (futureToday current_time)
    match future_events with
    | [] => none
    | _ => minByStart future_events

/-- `get_available_duration(events, current_time)` — src/room_checker.py
lines 118–134. -/
def get_available_duration (events : List Event) (current_time : Time) : Dur :=
  match get_next_event events current_time with
  | some next_event => Dur.fin (minutesBetween current_time next_event.start)
  | none => Dur.inf

/-- The accumulator loop of src/room_checker.py lines 163–168: scan the
events, keeping the first one seen with `start >= current_event_end` and
`start.date() == current_date` whose `start` is minimal. -/
def findNextAfter (events : List Event) (current_event_end : Time) (current_date : Int) :
    Option Event :=
  events.foldl
    (fun acc event =>
      if current_event_end ≤ event.start ∧ date event.start = current_date then
        match acc with
        | none => some event
        | some ne => if event.start < ne.start then some event else some ne
      else acc)
    none

/-- `get_next_availability(events, current_time)` — src/room_checker.py
lines 137–177: take the end `E` of the first event covering `current_time`
(`None` if no event covers it, or if `E` is on another date), then pair `E`
with the minutes until the earliest same-day event starting at or after `E`
(`inf` when there is none). -/
def get_next_availability (events : List Event) (current_time : Time) :
    Option (Time × Dur) :=
  match events.find? (covers current_time) with
  | none => none
  | some e =>
    if date e.stop ≠ date current_time then none
    else
      match findNextAfter events e.stop (date current_time) with
      | none => some (e.stop, Dur.inf)
      | some next_event_after =>
        some (e.stop, Dur.fin (minutesBetween e.stop next_event_after.start))

end RoomChecker

namespace FlaskApp

open RoomChecker

/-- `is_room_available(events, check_time)` — src/celcat_flask_app.py lines
253–261 (verbatim copy of `is_room_available_now`). -/
def is_room_available (events : List Event) (check_time : Time) : Bool :=
  match events with
  | [] => true
  | _ => events.all (fun e => !(covers check_time e))

/-- `get_next_event_today(events, check_time)` — src/celcat_flask_app.py
lines 264–270: filter the future same-day events and take the `min` by
`start`, `None` when the filtered list is empty. -/
def get_next_event_today (events : List Event) (check_time : Time) : Option Event :=
  match events with
  | [] => none
  | _ => minByStart (events.filter (futureToday check_time))

/-- `get_available_duration(events, check_time)` — src/celcat_flask_app.py
lines 273–277. -/
def get_available_duration (events : List Event) (check_time : Time) : Dur :=
  match get_next_event_today events check_time with
  | none => Dur.inf
  | some next_event => Dur.fin (minutesBetween check_time next_event.start)

/-- The filter of src/celcat_flask_app.py lines 296–297: events with
`start >= current_end` on the same date as `check_time`. -/
def afterEnd (current_end : Time) (check_date : Int) (e : Event) : Bool :=
  decide (current_end ≤ e.start) && decide (date e.start = check_date)

/-- `get_next_availability(events, check_time)` — src/celcat_flask_app.py
lines 280–305: early `None` on an empty list, then as in the CLI version,
except the minimal later event is found by `filter` + `min`. -/
def get_next_availability (events : List Event) (check_time : Time) :
    Option (Time × Dur) :=
  match events with
  | [] => none
  | _ =>
    match events.find? (covers check_time) with
    | none => none
    | some e =>
      if date e.stop ≠ date check_time then none
      else
        match minByStart (events.filter (afterEnd e.stop (date check_time))) with
        | none => some (e.stop, Dur.inf)
        | some next_event =>
          some (e.stop, Dur.fin (minutesBetween e.stop next_event.start))

end FlaskApp

namespace RoomChecker

/-- One entry of `available_rooms`: the tuple `(room, events, duration)` of
src/room_checker.py line 205 (the Flask dict of line 330 has the same
fields). -/
structure AvailEntry where
  room : String
  events : List Event
  duration : Dur
deriving DecidableEq

/-- One entry of `occupied_rooms`: the tuple
`(room, events, next_avail[0], next_avail[1])` of src/room_checker.py line
209, with the unused `events` component dropped (the Flask dict of lines
334–338 has exactly these three fields). -/
structure OccEntry where
  room : String
  avail_time : Time
  duration : Dur
deriving DecidableEq

/-- The sort-key order of `available_rooms.sort(key=lambda x: (-x[2], x[0]))`
(src/room_checker.py line 212, src/celcat_flask_app.py line 341):
`(-a.duration, a.room) ≤ (-b.duration, b.room)` lexicographically, i.e.
`b.duration < a.duration`, or equal durations and `a.room ≤ b.room`. -/
def availKeyLe (a b : AvailEntry) : Prop :=
  Dur.ltP b.duration a.duration ∨ (a.duration = b.duration ∧ a.room ≤ b.room)

instance : DecidableRel availKeyLe := fun _ _ =>
  inferInstanceAs (Decidable (_ ∨ _ ∧ _))

/-- The sort-key order of
`occupied_rooms.sort(key=lambda x: (x[2], -x[3], x[0]))`
(src/room_checker.py line 235, src/celcat_flask_app.py line 342). -/
def occKeyLe (a b : OccEntry) : Prop :=
  a.avail_time < b.avail_time ∨
    (a.avail_time = b.avail_time ∧
      (Dur.ltP b.duration a.duration ∨ (a.duration = b.duration ∧ a.room ≤ b.room)))

instance : DecidableRel occKeyLe := fun _ _ =>
  inferInstanceAs (Decidable (_ ∨ _ ∧ (_ ∨ _ ∧ _)))

/-- The per-room loop shared by src/room_checker.py lines 194–209 and
src/celcat_flask_app.py lines 323–338: fetch each room's events, skip the
room when the fetch failed, then file the room under `available_rooms`
(with its remaining free duration) or, when a same-day next slot exists,
under `occupied_rooms`. -/
def gatherRooms (fetch : String → Option (List Event)) (rooms : List String)
    (now : Time) : List AvailEntry × List OccEntry :=
  match rooms with
  | [] => ([], [])
  | room :: rest =>
    let acc := gatherRooms fetch rest now
    match fetch room with
    | none => acc
    | some events =>
      if is_room_available_now events now then
        (⟨room, events, get_available_duration events now⟩ :: acc.1, acc.2)
      else
        match get_next_availability events now with
        | none => acc
        | some next_avail =>
          (acc.1, ⟨room, next_avail.1, next_avail.2⟩ :: acc.2)

/-- The structured content of the CLI report / JSON response: the sorted
available list, the (possibly empty) "next to become available" section,
and the two summary counts. -/
structure Report where
  available : List AvailEntry
  next_available : List OccEntry
  n_available : Nat
  n_occupied : Nat
deriving DecidableEq

/-- `check_all_rooms()` — src/room_checker.py lines 180–251, with the fetch
function and the room list abstracted and printing replaced by the
structured report: sort `available_rooms` by `(-duration, room)`; when at
most 2 rooms are available and `occupied_rooms` is non-empty, sort
`occupied_rooms` by `(avail_time, -duration, room)` and display its first
2 entries; the summary counts both lists. -/
def check_all_rooms (fetch : String → Option (List Event)) (rooms : List String)
    (now : Time) : Report :=
  let gathered := gatherRooms fetch rooms now
  let available_rooms := List.insertionSort availKeyLe gathered.1
  let next :=
    if available_rooms.length ≤ 2 ∧ gathered.2 ≠ [] then
      (List.insertionSort occKeyLe gathered.2).take 2
    else []
  ⟨available_rooms, next, available_rooms.length, gathered.2.length⟩

end RoomChecker

namespace FlaskApp

open RoomChecker

/-- `check_availability()` — src/celcat_flask_app.py lines 313–371, with the
fetch function, room list and query time abstracted: same gather loop, both
lists sorted unconditionally, the `next_available` section filled with the
first 2 sorted occupied entries whenever at most 2 rooms are available. -/
def check_availability (fetch : String → Option (List Event)) (rooms : List String)
    (check_time : Time) : Report :=
  let gathered := gatherRooms fetch rooms check_time
  let available_rooms := List.insertionSort availKeyLe gathered.1
  let occupied_rooms := List.insertionSort occKeyLe gathered.2
  let next := if available_rooms.length ≤ 2 then occupied_rooms.take 2 else []
  ⟨available_rooms, next, available_rooms.length, occupied_rooms.length⟩

end FlaskApp

namespace RoomChecker

lemma covers_iff {t : Time} {e : Event} :
    covers t e = true ↔ e.start ≤ t ∧ t ≤ e.stop := by
  simp [covers]

lemma futureToday_iff {t : Time} {e : Event} :
    futureToday t e = true ↔ t < e.start ∧ date e.start = date t := by
  simp [futureToday]

lemma is_room_available_now_eq_true_iff {events : List Event} {t : Time} :
    is_room_available_now events t = true ↔
      ∀ e ∈ events, ¬(e.start ≤ t ∧ t ≤ e.stop) := by
  cases events with
  | nil => simp [is_room_available_now]
  | cons a l =>
    simp only [is_room_available_now, List.all_eq_true, List.mem_cons, covers,
      Bool.not_eq_eq_eq_not, Bool.not_true, Bool.and_eq_false_imp,
      decide_eq_true_eq, decide_eq_false_iff_not, not_and, not_le,
      forall_eq_or_imp]

lemma is_room_available_now_eq_false_iff {events : List Event} {t : Time} :
    is_room_available_now events t = false ↔
      ∃ e ∈ events, e.start ≤ t ∧ t ≤ e.stop := by
  rw [← Bool.not_eq_true, is_room_available_now_eq_true_iff]
  push_neg
  simp

lemma minByStart_eq_none_iff {l : List Event} : minByStart l = none ↔ l = [] := by
  cases l <;> simp [minByStart]

lemma foldl_minStep_mem (l : List Event) :
    ∀ m : Event,
      l.foldl (fun m x => if x.start < m.start then x else m) m = m ∨
      l.foldl (fun m x => if x.start < m.start then x else m) m ∈ l := by
  induction l with
  | nil => intro m; left; rfl
  | cons a l ih =>
    intro m
    simp only [List.foldl_cons]
    by_cases h : a.start < m.start
    · rw [if_pos h]
      rcases ih a with h1 | h1
      · right; rw [h1]; exact List.mem_cons_self a l
      · right; exact List.mem_cons_of_mem a h1
    · rw [if_neg h]
      rcases ih m with h1 | h1
      · left; exact h1
      · right; exact List.mem_cons_of_mem a h1

lemma foldl_minStep_le (l : List Event) :
    ∀ m : Event,
      (l.foldl (fun m x => if x.start < m.start then x else m) m).start ≤ m.start ∧
      ∀ x ∈ l, (l.foldl (fun m x => if x.start < m.start then x else m) m).start ≤ x.start := by
  induction l with
  | nil => simp
  | cons a l ih =>
    intro m
    simp only [List.foldl_cons]
    by_cases h : a.start < m.start
    · rw [if_pos h]
      refine ⟨le_trans (ih a).1 (le_of_lt h), ?_⟩
      intro x hx
      rcases List.mem_cons.mp hx with rfl | hx
      · exact (ih x).1
      · exact (ih a).2 x hx
    · rw [if_neg h]
      refine ⟨(ih m).1, ?_⟩
      intro x hx
      rcases List.mem_cons.mp hx with rfl | hx
      · exact le_trans (ih m).1 (not_lt.mp h)
      · exact (ih m).2 x hx

lemma minByStart_mem {l : List Event} {m : Event} (h : minByStart l = some m) :
    m ∈ l := by
  cases l with
  | nil => simp [minByStart] at h
  | cons a rest =>
    simp only [minByStart, Option.some.injEq] at h
    rcases foldl_minStep_mem rest a with h1 | h1
    · rw [← h]; rw [h1]; exact List.mem_cons_self a rest
    · rw [← h]; exact List.mem_cons_of_mem a h1

lemma minByStart_min {l : List Event} {m : Event} (h : minByStart l = some m) :
    ∀ x ∈ l, m.start ≤ x.start := by
  cases l with
  | nil => simp [minByStart] at h
  | cons a rest =>
    simp only [minByStart, Option.some.injEq] at h
    intro x hx
    rcases List.mem_cons.mp hx with rfl | hx
    · rw [← h]; exact (foldl_minStep_le rest x).1
    · rw [← h]; exact (foldl_minStep_le rest a).2 x hx

lemma minByStart_isSome {l : List Event} (h : l ≠ []) :
    ∃ m, minByStart l = some m := by
  cases l with
  | nil => exact absurd rfl h
  | cons a rest => exact ⟨_, rfl⟩

lemma get_next_event_eq (events : List Event) (t : Time) :
    get_next_event events t = minByStart (events.filter (futureToday t)) := by
  cases events with
  | nil => rfl
  | cons a l =>
    show (match (a :: l).filter (futureToday t) with
          | [] => none
          | _ => minByStart ((a :: l).filter (futureToday t))) = _
    cases h : (a :: l).filter (futureToday t) with
    | nil => rfl
    | cons b bs => rfl

lemma afterEnd_iff {E : Time} {d : Int} {e : Event} :
    FlaskApp.afterEnd E d e = true ↔ E ≤ e.start ∧ date e.start = d := by
  simp [FlaskApp.afterEnd]

lemma foldl_next_some (E : Time) (d : Int) (l : List Event) :
    ∀ m : Event,
      l.foldl
        (fun acc event =>
          if E ≤ event.start ∧ date event.start = d then
            match acc with
            | none => some event
            | some ne => if event.start < ne.start then some event else some ne
          else acc)
        (some m)
      = some ((l.filter (FlaskApp.afterEnd E d)).foldl
          (fun m x => if x.start < m.start then x else m) m) := by
  induction l with
  | nil => intro m; rfl
  | cons a l ih =>
    intro m
    by_cases h : E ≤ a.start ∧ date a.start = d
    · have hq : FlaskApp.afterEnd E d a = true := afterEnd_iff.mpr h
      simp only [List.foldl_cons, List.filter_cons, hq, if_pos h, if_true]
      rw [show (if a.start < m.start then some a else some m)
            = some (if a.start < m.start then a else m) from (apply_ite some _ _ _).symm]
      exact ih _
    · have hq : FlaskApp.afterEnd E d a = false := by
        rw [Bool.eq_false_iff]
        intro hc
        exact h (afterEnd_iff.mp hc)
      simp only [List.foldl_cons, List.filter_cons, hq, if_neg h, Bool.false_eq_true,
        if_false]
      exact ih m

lemma findNextAfter_eq (events : List Event) (E : Time) (d : Int) :
    findNextAfter events E d = minByStart (events.filter (FlaskApp.afterEnd E d)) := by
  induction events with
  | nil => rfl
  | cons a l ih =>
    unfold findNextAfter at *
    by_cases h : E ≤ a.start ∧ date a.start = d
    · have hq : FlaskApp.afterEnd E d a = true := afterEnd_iff.mpr h
      simp only [List.foldl_cons, List.filter_cons, hq, if_pos h, if_true]
      rw [foldl_next_some]
      rfl
    · have hq : FlaskApp.afterEnd E d a = false := by
        rw [Bool.eq_false_iff]
        intro hc
        exact h (afterEnd_iff.mp hc)
      simp only [List.foldl_cons, List.filter_cons, hq, if_neg h, Bool.false_eq_true,
        if_false]
      exact ih

lemma get_next_event_today_eq (events : List Event) (t : Time) :
    FlaskApp.get_next_event_today events t = minByStart (events.filter (futureToday t)) := by
  cases events with
  | nil => rfl
  | cons a l => rfl

lemma Dur.ltP_trans : ∀ {a b c : Dur}, a.ltP b → b.ltP c → a.ltP c
  | .fin _, .fin _, .fin _, h1, h2 => lt_trans h1 h2
  | .fin _, .fin _, .inf, _, _ => trivial
  | .fin _, .inf, _, _, h2 => h2.elim
  | .inf, _, _, h1, _ => h1.elim

lemma Dur.ltP_trichotomy : ∀ a b : Dur, a.ltP b ∨ a = b ∨ b.ltP a
  | .fin x, .fin y => by
    rcases lt_trichotomy x y with h | h | h
    · exact Or.inl h
    · exact Or.inr (Or.inl (by rw [h]))
    · exact Or.inr (Or.inr h)
  | .fin _, .inf => Or.inl trivial
  | .inf, .fin _ => Or.inr (Or.inr trivial)
  | .inf, .inf => Or.inr (Or.inl rfl)

instance : IsTotal AvailEntry availKeyLe := by
  constructor
  intro a b
  rcases Dur.ltP_trichotomy a.duration b.duration with h | h | h
  · exact Or.inr (Or.inl h)
  · rcases le_total a.room b.room with hr | hr
    · exact Or.inl (Or.inr ⟨h, hr⟩)
    · exact Or.inr (Or.inr ⟨h.symm, hr⟩)
  · exact Or.inl (Or.inl h)

instance : IsTrans AvailEntry availKeyLe := by
  constructor
  intro a b c hab hbc
  rcases hab with hab | ⟨hab, habr⟩
  · rcases hbc with hbc | ⟨hbc, _⟩
    · exact Or.inl (Dur.ltP_trans hbc hab)
    · exact Or.inl (hbc ▸ hab)
  · rcases hbc with hbc | ⟨hbc, hbcr⟩
    · exact Or.inl (by rw [hab]; exact hbc)
    · exact Or.inr ⟨hab.trans hbc, habr.trans hbcr⟩

instance : IsTotal OccEntry occKeyLe := by
  constructor
  intro a b
  rcases lt_trichotomy a.avail_time b.avail_time with h | h | h
  · exact Or.inl (Or.inl h)
  · rcases Dur.ltP_trichotomy a.duration b.duration with hd | hd | hd
    · exact Or.inr (Or.inr ⟨h.symm, Or.inl hd⟩)
    · rcases le_total a.room b.room with hr | hr
      · exact Or.inl (Or.inr ⟨h, Or.inr ⟨hd, hr⟩⟩)
      · exact Or.inr (Or.inr ⟨h.symm, Or.inr ⟨hd.symm, hr⟩⟩)
    · exact Or.inl (Or.inr ⟨h, Or.inl hd⟩)
  · exact Or.inr (Or.inl h)

instance : IsTrans OccEntry occKeyLe := by
  constructor
  intro a b c hab hbc
  rcases hab with hab | ⟨hab, hab2⟩
  · rcases hbc with hbc | ⟨hbc, _⟩
    · exact Or.inl (lt_trans hab hbc)
    · exact Or.inl (hbc ▸ hab)
  · rcases hbc with hbc | ⟨hbc, hbc2⟩
    · exact Or.inl (hab ▸ hbc)
    · refine Or.inr ⟨hab.trans hbc, ?_⟩
      rcases hab2 with hd | ⟨hd, hr⟩
      · rcases hbc2 with hd2 | ⟨hd2, _⟩
        · exact Or.inl (Dur.ltP_trans hd2 hd)
        · exact Or.inl (hd2 ▸ hd)
      · rcases hbc2 with hd2 | ⟨hd2, hr2⟩
        · exact Or.inl (by rw [hd]; exact hd2)
        · exact Or.inr ⟨hd.trans hd2, hr.trans hr2⟩

end RoomChecker

open RoomChecker

/-- C1: `isAvailable(events, t)` is true iff no event satisfies
`start <= t <= end`, both boundaries inclusive; in particular an event whose
interval contains `t` — including one ending exactly at `t`, as with
back-to-back events sharing the boundary `t` — renders the room occupied. -/
theorem is_available_iff_no_covering_event :
    ∀ (events : List Event) (t : Time),
      (is_room_available_now events t = true ↔
        ∀ e ∈ events, ¬(e.start ≤ t ∧ t ≤ e.stop)) ∧
      (∀ e ∈ events, e.start ≤ t → t ≤ e.stop →
        is_room_available_now events t = false) := by
  intro events t
  refine ⟨is_room_available_now_eq_true_iff, ?_⟩
  intro e he h1 h2
  exact is_room_available_now_eq_false_iff.mpr ⟨e, he, h1, h2⟩

/-- Witness for C1 at a concrete input: two back-to-back events `[0,60]` and
`[60,120]` queried at the shared boundary instant `t = 60`; the first event
ends exactly at `t` and the room counts as occupied. -/
theorem is_available_iff_no_covering_event_witness :
    (⟨0, 60⟩ : Event) ∈ [(⟨0, 60⟩ : Event), ⟨60, 120⟩] ∧
    (0 : Time) ≤ 60 ∧ (60 : Time) ≤ 60 ∧
    is_room_available_now [⟨0, 60⟩, ⟨60, 120⟩] 60 = false :=
  ⟨by decide, by decide, by decide,
    (is_available_iff_no_covering_event [⟨0, 60⟩, ⟨60, 120⟩] 60).2
      ⟨0, 60⟩ (by decide) (by decide) (by decide)⟩

/-- C3: `nextEventToday(events, t)` returns, among the events with
`start > t` on the same calendar date as `t`, one of minimal `start`, and
`none` exactly when no such event exists. -/
theorem next_event_today_spec :
    ∀ (events : List Event) (t : Time),
      (get_next_event events t = none ↔
        ∀ e ∈ events, ¬(t < e.start ∧ date e.start = date t)) ∧
      (∀ e, get_next_event events t = some e →
        e ∈ events ∧ t < e.start ∧ date e.start = date t ∧
          ∀ e' ∈ events, t < e'.start → date e'.start = date t →
            e.start ≤ e'.start) := by
  intro events t
  rw [get_next_event_eq, minByStart_eq_none_iff]
  constructor
  · rw [List.filter_eq_nil_iff]
    constructor
    · intro h e he hc
      exact absurd (futureToday_iff.mpr hc) (by simpa using h e he)
    · intro h e he hc
      exact h e he (futureToday_iff.mp hc)
  · intro e he
    have hmem := minByStart_mem he
    rw [List.mem_filter] at hmem
    obtain ⟨hmeme, hft⟩ := hmem
    obtain ⟨hlt, hdate⟩ := futureToday_iff.mp hft
    refine ⟨hmeme, hlt, hdate, ?_⟩
    intro e' he' hlt' hdate'
    exact minByStart_min he e'
      (List.mem_filter.mpr ⟨he', futureToday_iff.mpr ⟨hlt', hdate'⟩⟩)

/-- Witness for C3 at a concrete input: two future same-day events; the
earlier one (start 120) is returned. -/
theorem next_event_today_spec_witness :
    get_next_event [⟨300, 400⟩, ⟨120, 200⟩] 100 = some ⟨120, 200⟩ ∧
    ((⟨120, 200⟩ : Event) ∈ [(⟨300, 400⟩ : Event), ⟨120, 200⟩] ∧
      (100 : Time) < 120 ∧ date (120 : Time) = date (100 : Time) ∧
      ∀ e' ∈ [(⟨300, 400⟩ : Event), ⟨120, 200⟩], 100 < e'.start →
        date e'.start = date (100 : Time) → (120 : Time) ≤ e'.start) :=
  ⟨by decide,
    (next_event_today_spec [⟨300, 400⟩, ⟨120, 200⟩] 100).2 ⟨120, 200⟩ (by decide)⟩

/-- C4: with an empty event list, and likewise when every event lies wholly
in the past of the query instant, the room is available and the free
duration is infinite. -/
theorem empty_or_past_schedule_available :
    ∀ t : Time,
      (is_room_available_now [] t = true ∧ get_available_duration [] t = Dur.inf) ∧
      (∀ events : List Event, (∀ e ∈ events, e.start < t ∧ e.stop < t) →
        is_room_available_now events t = true ∧
        get_available_duration events t = Dur.inf) := by
  intro t
  refine ⟨⟨rfl, rfl⟩, ?_⟩
  intro events hpast
  constructor
  · refine is_room_available_now_eq_true_iff.mpr ?_
    intro e he ⟨_, h2⟩
    exact absurd h2 (not_le.mpr (hpast e he).2)
  · have hnone : get_next_event events t = none := by
      rw [get_next_event_eq, minByStart_eq_none_iff, List.filter_eq_nil_iff]
      intro e he hft
      exact absurd (futureToday_iff.mp hft).1 (not_lt.mpr (le_of_lt (hpast e he).1))
    unfold get_available_duration
    rw [hnone]

/-- Witness for C4 at a concrete input: one event wholly before the query
instant. -/
theorem empty_or_past_schedule_available_witness :
    (∀ e ∈ [(⟨0, 50⟩ : Event)], e.start < 100 ∧ e.stop < 100) ∧
    is_room_available_now [⟨0, 50⟩] 100 = true ∧
    get_available_duration [⟨0, 50⟩] 100 = Dur.inf :=
  ⟨by decide, (empty_or_past_schedule_available 100).2 [⟨0, 50⟩] (by decide)⟩

/-- C10: the availability evaluator of src/room_checker.py and its copy in
src/celcat_flask_app.py are extensionally equal function by function (the
next-availability results are compared as `(availableAt, duration)` pairs,
the common content of the CLI tuple and the Flask dict). -/
theorem cli_and_flask_evaluators_agree :
    ∀ (events : List Event) (t : Time),
      is_room_available_now events t = FlaskApp.is_room_available events t ∧
      get_next_event events t = FlaskApp.get_next_event_today events t ∧
      get_available_duration events t = FlaskApp.get_available_duration events t ∧
      get_next_availability events t = FlaskApp.get_next_availability events t := by
  intro events t
  have h2 : get_next_event events t = FlaskApp.get_next_event_today events t := by
    rw [get_next_event_eq, get_next_event_today_eq]
  refine ⟨by cases events <;> rfl, h2, ?_, ?_⟩
  · unfold get_available_duration FlaskApp.get_available_duration
    rw [h2]
    cases FlaskApp.get_next_event_today events t <;> rfl
  · cases events with
    | nil => rfl
    | cons a l =>
      show (match (a :: l).find? (covers t) with
            | none => none
            | some e =>
              if date e.stop ≠ date t then none
              else
                match findNextAfter (a :: l) e.stop (date t) with
                | none => some (e.stop, Dur.inf)
                | some ne => some (e.stop, Dur.fin (minutesBetween e.stop ne.start)))
          = (match (a :: l).find? (covers t) with
            | none => none
            | some e =>
              if date e.stop ≠ date t then none
              else
                match minByStart ((a :: l).filter (FlaskApp.afterEnd e.stop (date t))) with
                | none => some (e.stop, Dur.inf)
                | some ne => some (e.stop, Dur.fin (minutesBetween e.stop ne.start)))
      cases hf : (a :: l).find? (covers t) with
      | none => rfl
      | some e =>
        by_cases hd : date e.stop ≠ date t
        · simp only [if_pos hd]
        · simp only [if_neg hd, findNextAfter_eq]

lemma minutesBetween_nonneg {a b : Time} (h : a ≤ b) : 0 ≤ minutesBetween a b := by
  unfold minutesBetween
  refine div_nonneg ?_ (by norm_num)
  exact_mod_cast sub_nonneg.mpr h

lemma get_available_duration_of_none {events : List Event} {t : Time}
    (hne : get_next_event events t = none) :
    get_available_duration events t = Dur.inf := by
  unfold get_available_duration
  rw [hne]

lemma get_available_duration_of_some {events : List Event} {t : Time} {ne : Event}
    (hne : get_next_event events t = some ne) :
    get_available_duration events t = Dur.fin (minutesBetween t ne.start) := by
  unfold get_available_duration
  rw [hne]

lemma get_next_availability_of_find_none {events : List Event} {t : Time}
    (hf : events.find? (covers t) = none) :
    get_next_availability events t = none := by
  unfold get_next_availability
  rw [hf]

lemma get_next_availability_of_find_some {events : List Event} {t : Time} {e : Event}
    (hf : events.find? (covers t) = some e) :
    get_next_availability events t =
      if date e.stop ≠ date t then none
      else
        match minByStart (events.filter (FlaskApp.afterEnd e.stop (date t))) with
        | none => some (e.stop, Dur.inf)
        | some ne => some (e.stop, Dur.fin (minutesBetween e.stop ne.start)) := by
  have h1 : get_next_availability events t =
      (if date e.stop ≠ date t then none
       else
         match findNextAfter events e.stop (date t) with
         | none => some (e.stop, Dur.inf)
         | some ne => some (e.stop, Dur.fin (minutesBetween e.stop ne.start))) := by
    unfold get_next_availability
    rw [hf]
  rw [h1, findNextAfter_eq]

/-- C9: every finite duration the evaluator derives is non-negative: the
remaining free duration measures up to a strictly later event, and the free
window after an occupied stretch measures from the containing event's end to
an event starting no earlier. -/
theorem derived_durations_nonneg :
    ∀ (events : List Event) (t : Time) (d : ℚ),
      (get_available_duration events t = Dur.fin d → 0 ≤ d) ∧
      (∀ a : Time, get_next_availability events t = some (a, Dur.fin d) → 0 ≤ d) := by
  intro events t d
  constructor
  · intro h
    cases hne : get_next_event events t with
    | none =>
      rw [get_available_duration_of_none hne] at h
      exact absurd h (by simp)
    | some ne =>
      rw [get_available_duration_of_some hne] at h
      cases h
      rw [get_next_event_eq] at hne
      have := (futureToday_iff.mp (List.mem_filter.mp (minByStart_mem hne)).2).1
      exact minutesBetween_nonneg (le_of_lt this)
  · intro a h
    cases hf : events.find? (covers t) with
    | none =>
      rw [get_next_availability_of_find_none hf] at h
      exact absurd h (by simp)
    | some e =>
      rw [get_next_availability_of_find_some hf] at h
      by_cases hdate : date e.stop ≠ date t
      · rw [if_pos hdate] at h; exact absurd h (by simp)
      · rw [if_neg hdate] at h
        cases hm : minByStart (events.filter (FlaskApp.afterEnd e.stop (date t))) with
        | none => rw [hm] at h; simp at h
        | some ne =>
          rw [hm] at h
          simp only [Option.some.injEq, Prod.mk.injEq, Dur.fin.injEq] at h
          rw [← h.2]
          have := (afterEnd_iff.mp (List.mem_filter.mp (minByStart_mem hm)).2).1
          exact minutesBetween_nonneg this

/-- Witness for C9 at concrete inputs: a free room queried at 0 with the
next event at 60, and an occupied room whose covering event ends at 60 with
the following event starting at 120. -/
theorem derived_durations_nonneg_witness :
    (get_available_duration [⟨60, 120⟩] 0 = Dur.fin (minutesBetween 0 60) ∧
      0 ≤ minutesBetween 0 60) ∧
    (get_next_availability [⟨0, 60⟩, ⟨120, 180⟩] 30 =
        some (60, Dur.fin (minutesBetween 60 120)) ∧
      0 ≤ minutesBetween 60 120) :=
  ⟨⟨rfl, (derived_durations_nonneg [⟨60, 120⟩] 0 (minutesBetween 0 60)).1 rfl⟩,
    ⟨rfl, (derived_durations_nonneg [⟨0, 60⟩, ⟨120, 180⟩] 30 (minutesBetween 60 120)).2
      60 rfl⟩⟩

/-- C2: when the room is occupied at `t`, `nextAvailability` takes the end
`E` of the first event (in iteration order) whose interval contains `t`;
it returns `none` when `E` falls on another calendar date, and otherwise
returns `E` paired with `start - E` minutes for a minimal-start event with
`start >= E` on `t`'s date, or an infinite duration when no such event
exists. -/
theorem next_availability_spec :
    ∀ (events : List Event) (t : Time),
      is_room_available_now events t = false →
      ∃ e, events.find? (covers t) = some e ∧
        ((date e.stop ≠ date t ∧ get_next_availability events t = none) ∨
         (date e.stop = date t ∧
           ((get_next_availability events t = some (e.stop, Dur.inf) ∧
             ∀ e' ∈ events, ¬(e.stop ≤ e'.start ∧ date e'.start = date t)) ∨
            (∃ e', e' ∈ events ∧ e.stop ≤ e'.start ∧ date e'.start = date t ∧
              (∀ e'' ∈ events, e.stop ≤ e''.start → date e''.start = date t →
                e'.start ≤ e''.start) ∧
              get_next_availability events t =
                some (e.stop, Dur.fin (minutesBetween e.stop e'.start)))))) := by
  intro events t hocc
  obtain ⟨e0, he0, hc0⟩ := is_room_available_now_eq_false_iff.mp hocc
  have hsome : (events.find? (covers t)).isSome := by
    rw [List.find?_isSome]
    exact ⟨e0, he0, covers_iff.mpr hc0⟩
  obtain ⟨e, hf⟩ := Option.isSome_iff_exists.mp hsome
  refine ⟨e, hf, ?_⟩
  by_cases hdate : date e.stop = date t
  · right
    refine ⟨hdate, ?_⟩
    have hd' : ¬ date e.stop ≠ date t := by simpa using hdate
    cases hm : minByStart (events.filter (FlaskApp.afterEnd e.stop (date t))) with
    | none =>
      left
      constructor
      · rw [get_next_availability_of_find_some hf, if_neg hd', hm]
      · rw [minByStart_eq_none_iff, List.filter_eq_nil_iff] at hm
        intro e' he' hc
        exact hm e' he' (by simpa using afterEnd_iff.mpr hc)
    | some ne =>
      right
      have hmem := List.mem_filter.mp (minByStart_mem hm)
      obtain ⟨hne1, hne2⟩ := afterEnd_iff.mp hmem.2
      refine ⟨ne, hmem.1, hne1, hne2, ?_, ?_⟩
      · intro e'' he'' h1 h2
        exact minByStart_min hm e''
          (List.mem_filter.mpr ⟨he'', afterEnd_iff.mpr ⟨h1, h2⟩⟩)
      · rw [get_next_availability_of_find_some hf, if_neg hd', hm]
  · left
    refine ⟨hdate, ?_⟩
    rw [get_next_availability_of_find_some hf, if_pos hdate]

/-- Witness for C2 at a concrete input: an occupied room (covering event
`[0,60]` at `t = 30`) with a later same-day event `[120,180]`. -/
theorem next_availability_spec_witness :
    is_room_available_now [⟨0, 60⟩, ⟨120, 180⟩] 30 = false ∧
    ∃ e, ([(⟨0, 60⟩ : Event), ⟨120, 180⟩]).find? (covers 30) = some e ∧
      ((date e.stop ≠ date (30 : Time) ∧
          get_next_availability [⟨0, 60⟩, ⟨120, 180⟩] 30 = none) ∨
       (date e.stop = date (30 : Time) ∧
         ((get_next_availability [⟨0, 60⟩, ⟨120, 180⟩] 30 = some (e.stop, Dur.inf) ∧
           ∀ e' ∈ [(⟨0, 60⟩ : Event), ⟨120, 180⟩],
             ¬(e.stop ≤ e'.start ∧ date e'.start = date (30 : Time))) ∨
          (∃ e', e' ∈ [(⟨0, 60⟩ : Event), ⟨120, 180⟩] ∧ e.stop ≤ e'.start ∧
            date e'.start = date (30 : Time) ∧
            (∀ e'' ∈ [(⟨0, 60⟩ : Event), ⟨120, 180⟩], e.stop ≤ e''.start →
              date e''.start = date (30 : Time) → e'.start ≤ e''.start) ∧
            get_next_availability [⟨0, 60⟩, ⟨120, 180⟩] 30 =
              some (e.stop, Dur.fin (minutesBetween e.stop e'.start)))))) :=
  ⟨by decide, next_availability_spec [⟨0, 60⟩, ⟨120, 180⟩] 30 (by decide)⟩

lemma gatherRooms_skip (fetch : String → Option (List Event)) (t : Time)
    (room : String) (hf : fetch room = none) :
    ∀ rooms1 rooms2 : List String,
      gatherRooms fetch (rooms1 ++ room :: rooms2) t =
        gatherRooms fetch (rooms1 ++ rooms2) t := by
  intro rooms1
  induction rooms1 with
  | nil =>
    intro rooms2
    simp [gatherRooms, hf]
  | cons r rs ih =>
    intro rooms2
    simp only [List.cons_append, gatherRooms, List.append_eq, ih rooms2]

lemma gatherRooms_rooms_fetched (fetch : String → Option (List Event))
    (t : Time) (rooms : List String) :
    (∀ a ∈ (gatherRooms fetch rooms t).1, fetch a.room ≠ none) ∧
    (∀ o ∈ (gatherRooms fetch rooms t).2, fetch o.room ≠ none) := by
  induction rooms with
  | nil => exact ⟨by simp [gatherRooms], by simp [gatherRooms]⟩
  | cons r rest ih =>
    cases hfr : fetch r with
    | none =>
      have hg : gatherRooms fetch (r :: rest) t = gatherRooms fetch rest t := by
        simp [gatherRooms, hfr]
      rw [hg]
      exact ih
    | some ev =>
      by_cases hav : is_room_available_now ev t = true
      · have hg : gatherRooms fetch (r :: rest) t =
            (⟨r, ev, get_available_duration ev t⟩ :: (gatherRooms fetch rest t).1,
              (gatherRooms fetch rest t).2) := by
          simp [gatherRooms, hfr, hav]
        rw [hg]
        refine ⟨?_, ih.2⟩
        intro a ha
        rcases List.mem_cons.mp ha with rfl | ha
        · simp [hfr]
        · exact ih.1 a ha
      · have hav' : is_room_available_now ev t = false := by
          cases h2 : is_room_available_now ev t
          · rfl
          · exact absurd h2 hav
        cases hna : get_next_availability ev t with
        | none =>
          have hg : gatherRooms fetch (r :: rest) t = gatherRooms fetch rest t := by
            simp [gatherRooms, hfr, hav', hna]
          rw [hg]
          exact ih
        | some p =>
          have hg : gatherRooms fetch (r :: rest) t =
              ((gatherRooms fetch rest t).1,
                ⟨r, p.1, p.2⟩ :: (gatherRooms fetch rest t).2) := by
            simp [gatherRooms, hfr, hav', hna]
          rw [hg]
          refine ⟨ih.1, ?_⟩
          intro o ho
          rcases List.mem_cons.mp ho with rfl | ho
          · simp [hfr]
          · exact ih.2 o ho

/-- C5: the available list of the report is a permutation of the gathered
available rooms, sorted by descending free duration (`inf` above every
finite value) with ascending room identifier as tie-break — identically in
the CLI and Flask reports; concretely, rooms A:30min, B:infinite, C:30min
sort to [B, A, C]. -/
theorem available_report_sorted :
    (∀ (fetch : String → Option (List Event)) (rooms : List String) (t : Time),
      List.Perm (check_all_rooms fetch rooms t).available
        (gatherRooms fetch rooms t).1 ∧
      List.Pairwise
        (fun a b : AvailEntry =>
          Dur.ltP b.duration a.duration ∨
            (a.duration = b.duration ∧ a.room ≤ b.room))
        (check_all_rooms fetch rooms t).available ∧
      (FlaskApp.check_availability fetch rooms t).available =
        (check_all_rooms fetch rooms t).available) ∧
    (List.insertionSort availKeyLe
        [⟨"A", [], Dur.fin 30⟩, ⟨"B", [], Dur.inf⟩, ⟨"C", [], Dur.fin 30⟩]).map
      AvailEntry.room = ["B", "A", "C"] := by
  constructor
  · intro fetch rooms t
    refine ⟨List.perm_insertionSort availKeyLe _, ?_, rfl⟩
    exact List.sorted_insertionSort availKeyLe (gatherRooms fetch rooms t).1
  · have hBC : availKeyLe ⟨"B", [], Dur.inf⟩ ⟨"C", [], Dur.fin 30⟩ := Or.inl trivial
    have hAB : ¬ availKeyLe ⟨"A", [], Dur.fin 30⟩ ⟨"B", [], Dur.inf⟩ := by
      rintro (h | ⟨h, _⟩)
      · exact h
      · exact absurd h (by simp)
    have hAC : availKeyLe ⟨"A", [], Dur.fin 30⟩ ⟨"C", [], Dur.fin 30⟩ :=
      Or.inr ⟨rfl, by simp; decide⟩
    simp [List.insertionSort, List.orderedInsert, hBC, hAB, hAC]

/-- C6: the sorted occupied-rooms list used by both reports is a permutation
of the gathered occupied rooms, ordered by ascending becomes-available-at
instant, then descending free-window duration (`inf` first), then ascending
room identifier. -/
theorem occupied_list_sorted :
    ∀ (fetch : String → Option (List Event)) (rooms : List String) (t : Time),
      List.Perm (List.insertionSort occKeyLe (gatherRooms fetch rooms t).2)
        (gatherRooms fetch rooms t).2 ∧
      List.Pairwise
        (fun a b : OccEntry =>
          a.avail_time < b.avail_time ∨
            (a.avail_time = b.avail_time ∧
              (Dur.ltP b.duration a.duration ∨
                (a.duration = b.duration ∧ a.room ≤ b.room))))
        (List.insertionSort occKeyLe (gatherRooms fetch rooms t).2) := by
  intro fetch rooms t
  refine ⟨List.perm_insertionSort occKeyLe _, ?_⟩
  exact List.sorted_insertionSort occKeyLe (gatherRooms fetch rooms t).2

/-- C7: in both reports the "next to become available" section equals the
first 2 entries of the sorted occupied list exactly when at most 2 rooms
are available, is empty whenever more than 2 rooms are available, and never
holds more than 2 entries. -/
theorem next_section_rule :
    ∀ (fetch : String → Option (List Event)) (rooms : List String) (t : Time),
      ((check_all_rooms fetch rooms t).available.length ≤ 2 →
        (check_all_rooms fetch rooms t).next_available =
          (List.insertionSort occKeyLe (gatherRooms fetch rooms t).2).take 2) ∧
      (2 < (check_all_rooms fetch rooms t).available.length →
        (check_all_rooms fetch rooms t).next_available = []) ∧
      (check_all_rooms fetch rooms t).next_available.length ≤ 2 ∧
      ((FlaskApp.check_availability fetch rooms t).available.length ≤ 2 →
        (FlaskApp.check_availability fetch rooms t).next_available =
          (List.insertionSort occKeyLe (gatherRooms fetch rooms t).2).take 2) ∧
      (2 < (FlaskApp.check_availability fetch rooms t).available.length →
        (FlaskApp.check_availability fetch rooms t).next_available = []) ∧
      (FlaskApp.check_availability fetch rooms t).next_available.length ≤ 2 := by
  intro fetch rooms t
  have hcli : (check_all_rooms fetch rooms t).next_available =
      if (List.insertionSort availKeyLe (gatherRooms fetch rooms t).1).length ≤ 2 ∧
          (gatherRooms fetch rooms t).2 ≠ [] then
        (List.insertionSort occKeyLe (gatherRooms fetch rooms t).2).take 2
      else [] := rfl
  have hflask : (FlaskApp.check_availability fetch rooms t).next_available =
      if (List.insertionSort availKeyLe (gatherRooms fetch rooms t).1).length ≤ 2 then
        (List.insertionSort occKeyLe (gatherRooms fetch rooms t).2).take 2
      else [] := rfl
  have havcli : (check_all_rooms fetch rooms t).available =
      List.insertionSort availKeyLe (gatherRooms fetch rooms t).1 := rfl
  have havflask : (FlaskApp.check_availability fetch rooms t).available =
      List.insertionSort availKeyLe (gatherRooms fetch rooms t).1 := rfl
  refine ⟨?_, ?_, ?_, ?_, ?_, ?_⟩
  · intro hlen
    rw [havcli] at hlen
    rw [hcli]
    by_cases hocc : (gatherRooms fetch rooms t).2 = []
    · rw [if_neg (by simp [hocc]), hocc]
      rfl
    · rw [if_pos ⟨hlen, hocc⟩]
  · intro hlen
    rw [havcli] at hlen
    rw [hcli, if_neg]
    rintro ⟨h1, _⟩
    exact absurd h1 (not_le.mpr hlen)
  · rw [hcli]
    by_cases hc : (List.insertionSort availKeyLe (gatherRooms fetch rooms t).1).length ≤ 2 ∧
        (gatherRooms fetch rooms t).2 ≠ []
    · rw [if_pos hc, List.length_take]
      exact min_le_left _ _
    · rw [if_neg hc]
      simp
  · intro hlen
    rw [havflask] at hlen
    rw [hflask, if_pos hlen]
  · intro hlen
    rw [havflask] at hlen
    rw [hflask, if_neg (not_le.mpr hlen)]
  · rw [hflask]
    by_cases hc : (List.insertionSort availKeyLe (gatherRooms fetch rooms t).1).length ≤ 2
    · rw [if_pos hc, List.length_take]
      exact min_le_left _ _
    · rw [if_neg hc]
      simp

/-- Witness for C7 at a concrete input: a single room with an empty
schedule, so exactly one room is available and the section equals the first
2 entries of the (empty) sorted occupied list. -/
theorem next_section_rule_witness :
    (check_all_rooms (fun _ => some []) ["R1"] 0).available.length ≤ 2 ∧
    (check_all_rooms (fun _ => some []) ["R1"] 0).next_available =
      (List.insertionSort occKeyLe
        (gatherRooms (fun _ => some []) ["R1"] 0).2).take 2 :=
  ⟨by decide, (next_section_rule (fun _ => some []) ["R1"] 0).1 (by decide)⟩

/-- C8: a room whose fetch fails is skipped: the batch result over any room
list equals the result with that room removed (so the remaining rooms are
still evaluated and the run completes), and the failed room appears in
neither the available list nor the occupied list — hence in neither summary
count, which are the lengths of those lists. -/
theorem fetch_failure_isolated :
    ∀ (fetch : String → Option (List Event)) (t : Time) (room : String),
      fetch room = none →
      (∀ rooms1 rooms2 : List String,
        check_all_rooms fetch (rooms1 ++ room :: rooms2) t =
          check_all_rooms fetch (rooms1 ++ rooms2) t ∧
        FlaskApp.check_availability fetch (rooms1 ++ room :: rooms2) t =
          FlaskApp.check_availability fetch (rooms1 ++ rooms2) t) ∧
      (∀ rooms : List String,
        (∀ a ∈ (gatherRooms fetch rooms t).1, a.room ≠ room) ∧
        (∀ o ∈ (gatherRooms fetch rooms t).2, o.room ≠ room)) := by
  intro fetch t room hf
  constructor
  · intro rooms1 rooms2
    constructor
    · unfold check_all_rooms
      rw [gatherRooms_skip fetch t room hf rooms1 rooms2]
    · unfold FlaskApp.check_availability
      rw [gatherRooms_skip fetch t room hf rooms1 rooms2]
  · intro rooms
    have h := gatherRooms_rooms_fetched fetch t rooms
    constructor
    · intro a ha heq
      exact h.1 a ha (heq ▸ hf)
    · intro o ho heq
      exact h.2 o ho (heq ▸ hf)

/-- Witness for C8 at a concrete input: a fetch that fails for room X; the
report over [A, X] equals the report over [A] alone. -/
theorem fetch_failure_isolated_witness :
    ((fun _ : String => (none : Option (List Event))) "X" = none) ∧
    check_all_rooms (fun _ => none) (["A"] ++ "X" :: []) 0 =
      check_all_rooms (fun _ => none) (["A"] ++ []) 0 :=
  ⟨rfl, ((fetch_failure_isolated (fun _ => none) 0 "X" rfl).1 ["A"] []).1⟩

